import Mathlib

/-!
Verification of the binary-chunk codec, code generator output and table
semantics of a Lua 5.3 interpreter written in Go.

The Go source is embedded shallowly:

* bytes are Nat values below 256, byte streams are List Nat;
* Go uint8/uint32/uint64 conversions are explicit `% 2^w` truncations;
* Go int64 values are Int together with two conversion helpers that
  reinterpret the two's-complement bit pattern;
* Go float64 values appear in two roles: as serialized constants they are
  modelled by their 8-byte IEEE bit pattern (a Nat below 2^64, written and
  read back verbatim by the codec), and as table keys they are modelled by
  an exact-value type (NaN, infinities, or an exact rational), which is
  faithful for the operations the table code performs on them (equality,
  NaN test, exact integer conversion);
* Go panics become Except errors, Go maps become association lists.
-/

/- ## Little-endian integer encoding (Go encoding/binary, LittleEndian) -/

def u32le (n : Nat) : List Nat :=
  [n % 256, n / 256 % 256, n / 65536 % 256, n / 16777216 % 256]

def u64le (n : Nat) : List Nat :=
  [n % 256, n / 256 % 256, n / 65536 % 256, n / 16777216 % 256,
   n / 4294967296 % 256, n / 1099511627776 % 256, n / 281474976710656 % 256,
   n / 72057594037927936 % 256]

def readU32 : List Nat → Option (Nat × List Nat)
  | b0 :: b1 :: b2 :: b3 :: rest =>
    some (b0 + 256 * b1 + 65536 * b2 + 16777216 * b3, rest)
  | _ => none

def readU64 : List Nat → Option (Nat × List Nat)
  | b0 :: b1 :: b2 :: b3 :: b4 :: b5 :: b6 :: b7 :: rest =>
    some (b0 + 256 * b1 + 65536 * b2 + 16777216 * b3 + 4294967296 * b4 +
      1099511627776 * b5 + 281474976710656 * b6 + 72057594037927936 * b7, rest)
  | _ => none

def readByte : List Nat → Option (Nat × List Nat)
  | [] => none
  | b :: rest => some (b, rest)

def readBytes (n : Nat) (bs : List Nat) : Option (List Nat × List Nat) :=
  if n ≤ bs.length then some (bs.take n, bs.drop n) else none

/-- Go conversion uint64(i) of an int64 value: the two's-complement bit
pattern of i as an unsigned number. -/
def goUint64OfInt (i : Int) : Nat := (i % (18446744073709551616 : Int)).toNat

/-- Go reinterpretation int64(n) of a uint64 bit pattern. -/
def goInt64OfUint64 (n : Nat) : Int :=
  if n < 9223372036854775808 then (n : Int) else (n : Int) - 18446744073709551616

/- ## String encoding of the chunk writer

Lua strings are byte sequences, modelled as List Nat.  The function below
embeds dumpState.writeString from writer.go: the case split on the byte
length, the size increment, and the uint8 truncation of the size byte. -/

def writeString (s : List Nat) : List Nat :=
  if s.length = 0 then
    [0]
  else if s.length ≤ 0xFD then
    ((s.length + 1) % 256) :: s
  else
    0xFF :: (u64le (s.length + 1) ++ s)

/-- The string layout as the specification words it: one byte holding
length+1 for lengths up to 0xFD, the escape byte 0xFF followed by length+1
as an 8-byte little-endian integer for longer strings, and a single 0x00
byte for the empty string. -/
def writeStringSpec (s : List Nat) : List Nat :=
  if s.length = 0 then
    [0]
  else if 1 ≤ s.length ∧ s.length ≤ 0xFD then
    (s.length + 1) :: s
  else
    0xFF :: (u64le (s.length + 1) ++ s)

/-- Modelled from the spec: the binary-chunk string reader (the Undump side
of the codec is not part of the provided sources).  A first byte 0x00 is the
empty string; 0xFF escapes to an 8-byte length; otherwise the byte is
length+1 and the next length bytes are the string. -/
def readString (bs : List Nat) : Option (List Nat × List Nat) :=
  match bs with
  | [] => none
  | b :: rest =>
    if b = 0 then some ([], rest)
    else if b = 0xFF then
      match readU64 rest with
      | none => none
      | some (n, r2) => readBytes (n - 1) r2
    else readBytes (b - 1) rest

/- ## Constants -/

def TAG_NIL : Nat := 0x00
def TAG_BOOLEAN : Nat := 0x01
def TAG_NUMBER : Nat := 0x03
def TAG_INTEGER : Nat := 0x13
def TAG_SHORT_STR : Nat := 0x04
def TAG_LONG_STR : Nat := 0x14

/-- A constant-pool entry.  A Go float64 constant is carried as its 8-byte
IEEE-754 bit pattern (a Nat below 2^64), which is exactly what the codec
writes and reads. -/
inductive LuaConst where
  | cnil
  | cbool (b : Bool)
  | cnum (bits : Nat)
  | cint (i : Int)
  | cstr (s : List Nat)
deriving DecidableEq

/-- One iteration of the switch in dumpState.writeConstants: tag byte, then
the payload.  String constants pick the short or long tag by length and are
then written by writeString. -/
def dumpConstant : LuaConst → List Nat
  | .cnil => [TAG_NIL]
  | .cbool b => [TAG_BOOLEAN, if b then 1 else 0]
  | .cnum bits => TAG_NUMBER :: u64le bits
  | .cint i => TAG_INTEGER :: u64le (goUint64OfInt i)
  | .cstr s => (if s.length ≤ 0xFD then TAG_SHORT_STR else TAG_LONG_STR) :: writeString s

/-- Modelled from the spec: the constant reader of Undump (tagged values
NIL=0, BOOL=1+byte, NUMBER=3+f64, INTEGER=0x13+i64, SHORT_STR=4+string,
LONG_STR=0x14+string). -/
def readConstant (bs : List Nat) : Option (LuaConst × List Nat) :=
  match bs with
  | [] => none
  | t :: rest =>
    if t = TAG_NIL then some (.cnil, rest)
    else if t = TAG_BOOLEAN then
      match rest with
      | [] => none
      | b :: r2 => some (.cbool (b ≠ 0), r2)
    else if t = TAG_NUMBER then
      match readU64 rest with
      | none => none
      | some (n, r2) => some (.cnum n, r2)
    else if t = TAG_INTEGER then
      match readU64 rest with
      | none => none
      | some (n, r2) => some (.cint (goInt64OfUint64 n), r2)
    else if t = TAG_SHORT_STR ∨ t = TAG_LONG_STR then
      match readString rest with
      | none => none
      | some (s, r2) => some (.cstr s, r2)
    else none

/- ## Upvalue descriptors and debug records -/

structure Upvalue where
  Instack : Nat
  Idx : Nat
deriving DecidableEq

structure LocVar where
  VarName : List Nat
  StartPC : Nat
  EndPC : Nat
deriving DecidableEq

/-- One iteration of dumpState.writeUpvalues: Instack byte then Idx byte. -/
def dumpUpvalue (u : Upvalue) : List Nat := [u.Instack, u.Idx]

/-- Modelled from the spec: the upvalue-descriptor reader of Undump. -/
def readUpvalue (bs : List Nat) : Option (Upvalue × List Nat) :=
  match bs with
  | a :: b :: rest => some (⟨a, b⟩, rest)
  | _ => none

/-- One iteration of dumpState.writeLocVars: name, StartPC, EndPC. -/
def dumpLocVar (l : LocVar) : List Nat :=
  writeString l.VarName ++ u32le l.StartPC ++ u32le l.EndPC

/-- Modelled from the spec: the local-variable record reader of Undump. -/
def readLocVar (bs : List Nat) : Option (LocVar × List Nat) :=
  match readString bs with
  | none => none
  | some (name, r1) =>
    match readU32 r1 with
    | none => none
    | some (spc, r2) =>
      match readU32 r2 with
      | none => none
      | some (epc, r3) => some (⟨name, spc, epc⟩, r3)

/- ## Prototypes

The Go struct Prototype holds a slice of nested prototypes.  The nesting is
embedded as a pair of mutual inductive types so that all functions over it
are structurally recursive and evaluate inside the kernel; ProtoList is
isomorphic to List Prototype (ProtoList.ofList and ProtoList.toList below
convert).  Field order and names follow the Go struct. -/

mutual

inductive Prototype where
  | mk (Source : List Nat) (LineDefined LastLineDefined : Nat)
       (NumParams IsVararg MaxStackSize : Nat)
       (Code : List Nat) (Constants : List LuaConst) (Upvalues : List Upvalue)
       (Protos : ProtoList) (LineInfo : List Nat) (LocVars : List LocVar)
       (UpvalueNames : List (List Nat))
deriving DecidableEq

inductive ProtoList where
  | nil
  | cons (p : Prototype) (ps : ProtoList)
deriving DecidableEq

end

def ProtoList.length : ProtoList → Nat
  | .nil => 0
  | .cons _ ps => ps.length + 1

def ProtoList.ofList : List Prototype → ProtoList
  | [] => .nil
  | p :: ps => .cons p (ofList ps)

def ProtoList.toList : ProtoList → List Prototype
  | .nil => []
  | .cons p ps => p :: toList ps

def Prototype.MaxStackSize : Prototype → Nat
  | .mk _ _ _ _ _ mss _ _ _ _ _ _ _ => mss

def Prototype.Protos : Prototype → ProtoList
  | .mk _ _ _ _ _ _ _ _ _ protos _ _ _ => protos

/-- A counted sequence as the writer emits it: a uint32 element count
followed by the serialized elements. -/
def writeSeq {α : Type} (f : α → List Nat) (xs : List α) : List Nat :=
  u32le xs.length ++ (xs.map f).flatten

mutual

/-- dumpState.dumpFunction from writer.go: source name, line range, three
single-byte fields, then the counted sequences of code words, constants,
upvalue descriptors, nested prototypes, line info, local variables and
upvalue names. -/
def dumpFunction : Prototype → List Nat
  | .mk src ld lld np iv mss code consts ups protos li lv un =>
    writeString src ++ u32le ld ++ u32le lld ++ [np % 256, iv % 256, mss % 256] ++
    writeSeq u32le code ++
    writeSeq dumpConstant consts ++
    writeSeq dumpUpvalue ups ++
    u32le protos.length ++ dumpProtoList protos ++
    writeSeq u32le li ++
    writeSeq dumpLocVar lv ++
    writeSeq writeString un

/-- The loop body of dumpState.writePrototypes: each nested prototype is
dumped in turn by dumpFunction. -/
def dumpProtoList : ProtoList → List Nat
  | .nil => []
  | .cons p ps => dumpFunction p ++ dumpProtoList ps

end

/-- The 33 header bytes written by dumpState.dumpHeader: signature, version
0x53, format 0, the six luacData bytes, the five size bytes, the test
integer 0x5678 and the test float 370.5 (IEEE bits 0x4077280000000000),
all little-endian. -/
def headerBytes : List Nat :=
  [0x1B, 0x4C, 0x75, 0x61, 0x53, 0x00,
   0x19, 0x93, 0x0D, 0x0A, 0x1A, 0x0A,
   4, 8, 4, 8, 8] ++ u64le 0x5678 ++ [0, 0, 0, 0, 0, 0, 0x77, 0x40]

/-- The byte stream produced by Dump from writer.go: the header, then the
single size-of-upvalues byte (dumpSizeUpvalues writes the literal uint8(0)),
then the top-level function block. -/
def Dump (p : Prototype) : List Nat := headerBytes ++ [0] ++ dumpFunction p

/- ## The reader side, modelled from the spec

The repository sources contain only the writer half of the codec; Undump is
referenced by main.go but its code is not among the provided files.  The
reader below is modelled from the specification of the chunk format: the
function-block field order, the tagged constants, and the string encoding.
Nested prototypes make the reader recursive; a fuel parameter bounds the
nesting depth and the top-level entry point supplies more fuel than any
stream of that length could need. -/

/-- Read n items with a one-item reader, threading the remaining bytes. -/
def readSeqF {α : Type} (read1 : List Nat → Option (α × List Nat)) :
    Nat → List Nat → Option (List α × List Nat)
  | 0, bs => some ([], bs)
  | n + 1, bs =>
    match read1 bs with
    | none => none
    | some (x, r) =>
      match readSeqF read1 n r with
      | none => none
      | some (xs, r2) => some (x :: xs, r2)

/-- Modelled from the spec: the function-block reader of Undump.  Fields are
read in the order the spec lists them, each counted sequence as a uint32
count followed by that many items. -/
def undumpFunction : Nat → List Nat → Option (Prototype × List Nat)
  | 0, _ => none
  | fuel + 1, bs =>
    match readString bs with
    | none => none
    | some (src, r1) =>
    match readU32 r1 with
    | none => none
    | some (ld, r2) =>
    match readU32 r2 with
    | none => none
    | some (lld, r3) =>
    match r3 with
    | np :: iv :: mss :: r4 =>
      match readU32 r4 with
      | none => none
      | some (ncode, r5) =>
      match readSeqF readU32 ncode r5 with
      | none => none
      | some (code, r6) =>
      match readU32 r6 with
      | none => none
      | some (ncon, r7) =>
      match readSeqF readConstant ncon r7 with
      | none => none
      | some (consts, r8) =>
      match readU32 r8 with
      | none => none
      | some (nup, r9) =>
      match readSeqF readUpvalue nup r9 with
      | none => none
      | some (ups, r10) =>
      match readU32 r10 with
      | none => none
      | some (nproto, r11) =>
      match readSeqF (fun bs2 => undumpFunction fuel bs2) nproto r11 with
      | none => none
      | some (protos, r12) =>
      match readU32 r12 with
      | none => none
      | some (nli, r13) =>
      match readSeqF readU32 nli r13 with
      | none => none
      | some (li, r14) =>
      match readU32 r14 with
      | none => none
      | some (nlv, r15) =>
      match readSeqF readLocVar nlv r15 with
      | none => none
      | some (lv, r16) =>
      match readU32 r16 with
      | none => none
      | some (nun, r17) =>
      match readSeqF readString nun r17 with
      | none => none
      | some (un, r18) =>
        some (.mk src ld lld np iv mss code consts ups (ProtoList.ofList protos) li lv un, r18)
    | _ => none

/-- Modelled from the spec: Undump checks the header, skips the
size-of-upvalues byte of the top-level function, and reads the top-level
function block.  Fuel one larger than the stream length bounds any possible
nesting depth, since every nesting level consumes at least one byte. -/
def Undump (bs : List Nat) : Option Prototype :=
  if bs.take 33 = headerBytes then
    match bs.drop 33 with
    | [] => none
    | _ :: rest =>
      match undumpFunction (rest.length + 1) rest with
      | none => none
      | some (p, _) => some p
  else none

/- ## Well-formedness of a prototype

The bounds that the Go types impose on a Prototype in memory: byte fields
below 256, uint32 fields and slice lengths below 2^32, code words below
2^32, int64 constants in the signed 64-bit range, float constants an 8-byte
bit pattern, and string lengths small enough that length+1 fits in a
uint64.  Every prototype the compiler builds satisfies these by typing. -/

def strOK (s : List Nat) : Bool := s.length + 1 < 18446744073709551616

def wfConst : LuaConst → Bool
  | .cnil => true
  | .cbool _ => true
  | .cnum bits => bits < 18446744073709551616
  | .cint i => -9223372036854775808 ≤ i ∧ i < 9223372036854775808
  | .cstr s => strOK s

mutual

def wfProto : Prototype → Bool
  | .mk src ld lld np iv mss code consts ups protos li lv un =>
    strOK src && ld < 4294967296 && lld < 4294967296 &&
    np < 256 && iv < 256 && mss < 256 &&
    code.length < 4294967296 && code.all (· < 4294967296) &&
    consts.length < 4294967296 && consts.all wfConst &&
    ups.length < 4294967296 && ups.all (fun u => u.Instack < 256 && u.Idx < 256) &&
    protos.length < 4294967296 && wfProtoList protos &&
    li.length < 4294967296 && li.all (· < 4294967296) &&
    lv.length < 4294967296 &&
    lv.all (fun l => strOK l.VarName && l.StartPC < 4294967296 && l.EndPC < 4294967296) &&
    un.length < 4294967296 && un.all strOK

def wfProtoList : ProtoList → Bool
  | .nil => true
  | .cons p ps => wfProto p && wfProtoList ps

end

mutual

/-- Nesting depth of a prototype, bounding the fuel the reader needs. -/
def pdepth : Prototype → Nat
  | .mk _ _ _ _ _ _ _ _ _ protos _ _ _ => pdepthList protos + 1

def pdepthList : ProtoList → Nat
  | .nil => 0
  | .cons p ps => max (pdepth p) (pdepthList ps)

end

/- ## Code generator output (toProto, getConstants, getUpvalues)

The funcInfo record of the code generator, restricted to the fields that
toProto reads.  Go slices of child funcInfo values are embedded with the
same mutual-inductive device as Prototype.  The Go constant-pool map
(constant to index) and upvalue map (name to upvalInfo) are carried as
association lists. -/

structure upvalInfo where
  locVarSlot : Int
  upvalIndex : Int
  index : Nat
deriving DecidableEq

mutual

inductive funcInfo where
  | mk (numParams : Nat) (maxRegs : Nat) (isVararg : Bool)
       (insts : List Nat) (constants : List (LuaConst × Nat))
       (upvalues : List (List Nat × upvalInfo))
       (subFuncs : funcInfoList)
       (LineDefined LastLineDefined : Nat)

inductive funcInfoList where
  | nil
  | cons (fi : funcInfo) (fis : funcInfoList)

end

def funcInfo.numParams : funcInfo → Nat
  | .mk np _ _ _ _ _ _ _ _ => np

def funcInfo.maxRegs : funcInfo → Nat
  | .mk _ mr _ _ _ _ _ _ _ => mr

def funcInfo.isVararg : funcInfo → Bool
  | .mk _ _ iv _ _ _ _ _ _ => iv

def funcInfo.insts : funcInfo → List Nat
  | .mk _ _ _ insts _ _ _ _ _ => insts

def funcInfo.constants : funcInfo → List (LuaConst × Nat)
  | .mk _ _ _ _ consts _ _ _ _ => consts

def funcInfo.upvalues : funcInfo → List (List Nat × upvalInfo)
  | .mk _ _ _ _ _ ups _ _ _ => ups

def funcInfo.LineDefined : funcInfo → Nat
  | .mk _ _ _ _ _ _ _ ld _ => ld

def funcInfo.LastLineDefined : funcInfo → Nat
  | .mk _ _ _ _ _ _ _ _ lld => lld

/-- Go conversion byte(i) of an int: the low 8 bits of the two's-complement
pattern. -/
def goByteOfInt (i : Int) : Nat := (i % 256).toNat

/-- getConstants from the code generator: allocate a slice of the pool's
size (Go zero value of interface is nil, hence the nil constant) and place
each pooled constant at its recorded index. -/
def getConstants (fi : funcInfo) : List LuaConst :=
  fi.constants.foldl (fun consts ki => consts.set ki.2 ki.1)
    (List.replicate fi.constants.length .cnil)

/-- getUpvalues from the code generator: allocate a slice of the upvalue
table's size and place, at each upvalue's recorded index, the descriptor
(Instack=1, Idx=locVarSlot) when locVarSlot is nonnegative and
(Instack=0, Idx=upvalIndex) otherwise, with Go byte conversions. -/
def getUpvalues (fi : funcInfo) : List Upvalue :=
  fi.upvalues.foldl
    (fun upvals nuv =>
      upvals.set nuv.2.index
        (if 0 ≤ nuv.2.locVarSlot then ⟨1, goByteOfInt nuv.2.locVarSlot⟩
         else ⟨0, goByteOfInt nuv.2.upvalIndex⟩))
    (List.replicate fi.upvalues.length ⟨0, 0⟩)

mutual

/-- toProto from the code generator: build the Prototype (Source is left at
its zero value, the debug tables are empty slices, IsVararg starts at the
zero value 0), then clamp MaxStackSize up to 2 when it is below 2 and set
IsVararg to 1 when the function is vararg. -/
def toProto : funcInfo → Prototype
  | fi@(.mk _ _ _ _ _ _ subs _ _) =>
    let mss0 := fi.maxRegs % 256
    Prototype.mk [] fi.LineDefined fi.LastLineDefined (fi.numParams % 256)
      (if fi.isVararg then 1 else 0)
      (if mss0 < 2 then 2 else mss0)
      fi.insts (getConstants fi) (getUpvalues fi) (toProtos subs) [] [] []

/-- toProtos from the code generator: toProto applied to each child. -/
def toProtos : funcInfoList → ProtoList
  | .nil => .nil
  | .cons fi fis => .cons (toProto fi) (toProtos fis)

end

/- ## The stateful writer (dumpState) with a fallible output

dumpState couples the output writer with a sticky error field.  The
underlying io.Writer may fail; its behavior is modelled by an oracle list
giving the outcome of each successive call of encoding/binary Write (none
is success, some e is failure with error e; an exhausted oracle means
every further call succeeds).  Error values are abstract Nat codes. -/

structure dumpState where
  out : List Nat
  err : Option Nat
  oracle : List (Option Nat)
deriving DecidableEq

/-- The write method of dumpState from writer.go: only when no error is
recorded does it call the underlying Write, recording the outcome. -/
def dumpState.write (d : dumpState) (data : List Nat) : dumpState :=
  if d.err = none then
    match d.oracle with
    | [] => { d with out := d.out ++ data }
    | none :: rest => { d with out := d.out ++ data, oracle := rest }
    | some e :: rest => { d with err := some e, oracle := rest }
  else d

/-- A direct assignment of the underlying Write's result to the error field,
as dumpHeader and dumpSizeUpvalues do: the call is made unconditionally and
its outcome overwrites whatever error was stored. -/
def dumpState.writeDirect (d : dumpState) (data : List Nat) : dumpState :=
  match d.oracle with
  | [] => { d with out := d.out ++ data, err := none }
  | none :: rest => { d with out := d.out ++ data, err := none, oracle := rest }
  | some e :: rest => { d with err := some e, oracle := rest }

/-- A sequence of write-method calls. -/
def writeAll (d : dumpState) (chunks : List (List Nat)) : dumpState :=
  chunks.foldl dumpState.write d

/-- The payloads of the individual write calls that writeString makes: the
size byte, then (for nonempty strings) the data, with the 8-byte length
in between for long strings. -/
def stringChunks (s : List Nat) : List (List Nat) :=
  if s.length = 0 then
    [[0]]
  else if s.length ≤ 0xFD then
    [[(s.length + 1) % 256], s]
  else
    [[0xFF], u64le (s.length + 1), s]

/-- The payloads of the write calls that one constant produces. -/
def constChunks : LuaConst → List (List Nat)
  | .cnil => [[TAG_NIL]]
  | .cbool b => [[TAG_BOOLEAN], [if b then 1 else 0]]
  | .cnum bits => [[TAG_NUMBER], u64le bits]
  | .cint i => [[TAG_INTEGER], u64le (goUint64OfInt i)]
  | .cstr s => [if s.length ≤ 0xFD then [TAG_SHORT_STR] else [TAG_LONG_STR]] ++ stringChunks s

mutual

/-- The payloads of the successive write calls of dumpFunction, in order:
this is dumpFunction seen at the granularity of its elementary writes.  The
concatenation of these chunks is proved equal to dumpFunction below. -/
def functionChunks : Prototype → List (List Nat)
  | .mk src ld lld np iv mss code consts ups protos li lv un =>
    stringChunks src ++ [u32le ld] ++ [u32le lld] ++
    [[np % 256]] ++ [[iv % 256]] ++ [[mss % 256]] ++
    [u32le code.length] ++ [(code.map u32le).flatten] ++
    [u32le consts.length] ++ (consts.map constChunks).flatten ++
    [u32le ups.length] ++ (ups.map (fun u => [[u.Instack], [u.Idx]])).flatten ++
    [u32le protos.length] ++ protoListChunks protos ++
    [u32le li.length] ++ li.map u32le ++
    [u32le lv.length] ++
    (lv.map (fun l => stringChunks l.VarName ++ [u32le l.StartPC] ++ [u32le l.EndPC])).flatten ++
    [u32le un.length] ++ (un.map stringChunks).flatten

def protoListChunks : ProtoList → List (List Nat)
  | .nil => []
  | .cons p ps => functionChunks p ++ protoListChunks ps

end

/-- Dump from writer.go over the fallible writer: a fresh dumpState,
dumpHeader and dumpSizeUpvalues with their direct error assignments, the
function body through the write method, and the final overwrite of the
error field with the result of writing the buffer to the output file. -/
def DumpS (p : Prototype) (oracle : List (Option Nat)) (fileRes : Option Nat) : dumpState :=
  let d0 : dumpState := ⟨[], none, oracle⟩
  let d1 := d0.writeDirect headerBytes
  let d2 := d1.writeDirect [0]
  let d3 := writeAll d2 (functionChunks p)
  { d3 with err := fileRes }

/- ## The table (luaTable)

The table code of the repository keeps a single Go map from keys to values
together with a lazily built key-successor map used by next.  Go maps are
embedded as association lists without duplicate keys; a map lookup that
misses yields the Go zero value, here the nil Lua value.  The metatable
pointer and hasMetafield are not modelled (no claim touches them).

Go float64 keys are modelled by their exact value: NaN, one of the two
infinities, or an exact rational.  The operations the table performs on
float keys (equality, the NaN test, exact conversion to integer) are
faithfully represented on this type. -/

inductive GoFloat where
  | nan
  | inf
  | neginf
  | val (q : ℚ)
deriving DecidableEq

inductive LuaValue where
  | nil
  | boolean (b : Bool)
  | integer (i : Int)
  | float (f : GoFloat)
  | str (s : List Nat)
  | tableRef (id : Nat)
deriving DecidableEq

/-- math.IsNaN on a key. -/
def isNaNKey : LuaValue → Bool
  | .float .nan => true
  | _ => false

/-- Modelled from the spec: number.FloatToInteger from the luago/number
package is not among the provided sources; per the spec, floats that are
integral are normalized to their integer form. -/
def FloatToInteger : GoFloat → Option Int
  | .val q => if q.den = 1 then some q.num else none
  | _ => none

def _floatToInteger (key : LuaValue) : LuaValue :=
  match key with
  | .float f =>
    match FloatToInteger f with
    | some i => .integer i
    | none => key
  | _ => key

/-- Association-list lookup with the Go zero value on a miss. -/
def mapGet : List (LuaValue × LuaValue) → LuaValue → LuaValue
  | [], _ => .nil
  | (k0, v0) :: rest, k => if k0 = k then v0 else mapGet rest k

/-- Go map assignment m[k] = v. -/
def mapInsert : List (LuaValue × LuaValue) → LuaValue → LuaValue → List (LuaValue × LuaValue)
  | [], k, v => [(k, v)]
  | (k0, v0) :: rest, k, v =>
    if k0 = k then (k, v) :: rest else (k0, v0) :: mapInsert rest k v

/-- Go delete(m, k). -/
def mapErase : List (LuaValue × LuaValue) → LuaValue → List (LuaValue × LuaValue)
  | [], _ => []
  | (k0, v0) :: rest, k => if k0 = k then rest else (k0, v0) :: mapErase rest k

inductive TableErr where
  | nilIndex
  | nanIndex
  | invalidNext
deriving DecidableEq

structure luaTable where
  _map : List (LuaValue × LuaValue)
  keys : Option (List (LuaValue × LuaValue))
  lastKey : LuaValue
  changed : Bool
deriving DecidableEq

/-- newLuaTable: the capacity hints only size the Go map; the fresh table
has zero values in every field. -/
def newLuaTable (nArr nRec : Int) : luaTable :=
  { _map := [], keys := none, lastKey := .nil, changed := false }

def luaTable.len (t : luaTable) : Nat := t._map.length

def luaTable.get (t : luaTable) (key : LuaValue) : LuaValue :=
  mapGet t._map (_floatToInteger key)

/-- luaTable.put: panic on a nil or NaN key, mark the table changed,
normalize integral float keys, then assign, where assigning nil deletes. -/
def luaTable.put (t : luaTable) (key val : LuaValue) : Except TableErr luaTable :=
  if key = .nil then .error .nilIndex
  else if isNaNKey key then .error .nanIndex
  else
    let t1 := { t with changed := true }
    let key1 := _floatToInteger key
    if val ≠ .nil then .ok { t1 with _map := mapInsert t1._map key1 val }
    else .ok { t1 with _map := mapErase t1._map key1 }

/-- The loop of initKeys: visit the map entries, and for each entry with a
non-nil value insert successor pair (previous, k) into the fresh key map,
carrying the last visited key out.  Go inserts into a fresh map whose keys
(the successive previous keys) are distinct, so the association list built
here is the same finite map; the iteration order of the Go map is fixed
here as the list order, which the claims do not distinguish. -/
def buildKeys : LuaValue → List (LuaValue × LuaValue) →
    List (LuaValue × LuaValue) × LuaValue
  | prev, [] => ([], prev)
  | prev, (k, v) :: rest =>
    if v = .nil then buildKeys prev rest
    else
      let built := buildKeys k rest
      ((prev, k) :: built.1, built.2)

/-- luaTable.initKeys: rebuild the key-successor snapshot and the last key,
starting from the nil key. -/
def luaTable.initKeys (t : luaTable) : luaTable :=
  let built := buildKeys .nil t._map
  { t with keys := some built.1, lastKey := built.2 }

/-- luaTable.nextKey: rebuild the snapshot when it does not exist yet or
when restarting from nil after a structural change; then look the key up in
the snapshot, panicking when a non-nil key is neither present nor the last
key. -/
def luaTable.nextKey (t : luaTable) (key : LuaValue) :
    Except TableErr (LuaValue × luaTable) :=
  let t1 := if t.keys = none ∨ (key = .nil ∧ t.changed) then
      { t.initKeys with changed := false }
    else t
  let nk := mapGet (t1.keys.getD []) key
  if nk = .nil ∧ key ≠ .nil ∧ key ≠ t1.lastKey then .error .invalidNext
  else .ok (nk, t1)

/-- Apply a sequence of put operations; a put that panics leaves the table
as it was. -/
def applyPuts (t : luaTable) : List (LuaValue × LuaValue) → luaTable
  | [] => t
  | (k, v) :: rest =>
    applyPuts (match t.put k v with | .ok t2 => t2 | .error _ => t) rest

/-- Traverse the table with nextKey starting from a key, collecting the
keys visited, with fuel; some means the traversal reached a nil answer from
nextKey within the fuel, none means it ran out of fuel or nextKey
panicked. -/
def iterKeys : Nat → luaTable → LuaValue → Option (List LuaValue)
  | 0, _, _ => none
  | fuel + 1, t, k =>
    match t.nextKey k with
    | .error _ => none
    | .ok (nk, t2) =>
      if nk = .nil then some [] else (iterKeys fuel t2 nk).map (nk :: ·)

/-- The keys of the table's map. -/
def mapKeys (m : List (LuaValue × LuaValue)) : List LuaValue := m.map Prod.fst

/-- Well-formedness of the map underlying a table: no duplicate keys (a Go
map cannot hold any), and neither nil keys nor nil values (the put method
never stores either). -/
def wfMap (m : List (LuaValue × LuaValue)) : Prop :=
  (mapKeys m).Nodup ∧ ∀ kv ∈ m, kv.1 ≠ .nil ∧ kv.2 ≠ .nil

/-- A border in the words of the claim: an index n with t[n] non-nil and
t[n+1] nil, or 0 when t[1] is nil. -/
def isBorder (t : luaTable) (n : Nat) : Prop :=
  (n = 0 ∧ t.get (.integer 1) = .nil) ∨
  (n ≠ 0 ∧ t.get (.integer n) ≠ .nil ∧ t.get (.integer (n + 1)) = .nil)

/- ## Byte-level helper lemmas -/

theorem readU32_u32le (n : Nat) (rest : List Nat) (h : n < 4294967296) :
    readU32 (u32le n ++ rest) = some (n, rest) := by
  simp [u32le, readU32]
  omega

theorem readU64_u64le (n : Nat) (rest : List Nat) (h : n < 18446744073709551616) :
    readU64 (u64le n ++ rest) = some (n, rest) := by
  simp [u64le, readU64]
  omega

theorem goInt64_goUint64 (i : Int) (h1 : -9223372036854775808 ≤ i)
    (h2 : i < 9223372036854775808) : goInt64OfUint64 (goUint64OfInt i) = i := by
  simp [goUint64OfInt, goInt64OfUint64]
  omega

theorem readBytes_append (s rest : List Nat) :
    readBytes s.length (s ++ rest) = some (s, rest) := by
  simp [readBytes, List.take_left, List.drop_left]

theorem readString_writeString (s : List Nat) (rest : List Nat)
    (h : strOK s = true) : readString (writeString s ++ rest) = some (s, rest) := by
  by_cases h0 : s.length = 0
  · rw [List.length_eq_zero] at h0
    subst h0
    simp [writeString, readString]
  · by_cases h1 : s.length ≤ 0xFD
    · have hlt : (s.length + 1) % 256 = s.length + 1 := Nat.mod_eq_of_lt (by omega)
      have h2 : writeString s ++ rest = (s.length + 1) :: (s ++ rest) := by
        simp [writeString, h0, h1, hlt]
      rw [h2, readString]
      have hne : ¬(s.length + 1 = 0) := by omega
      have hne2 : ¬(s.length + 1 = 0xFF) := by omega
      simp only [hne, hne2, if_false, Nat.add_sub_cancel]
      exact readBytes_append s rest
    · have h2 : writeString s ++ rest = 0xFF :: (u64le (s.length + 1) ++ (s ++ rest)) := by
        simp [writeString, h0, h1]
      rw [h2, readString]
      simp only [if_neg (by omega : ¬(0xFF : Nat) = 0), if_pos rfl]
      rw [readU64_u64le (s.length + 1) (s ++ rest) (by simpa [strOK] using h)]
      simp only [Nat.add_sub_cancel]
      exact readBytes_append s rest

/- ## C3: the chunk writer's string encoding -/

/-- C3: writeString emits a single 0x00 byte for the empty string, a single
length+1 byte followed by the data for lengths 1..0xFD, and the byte 0xFF,
then length+1 as an 8-byte little-endian integer, then the data, for longer
strings; this is exactly the encoding the claim describes, stated as
agreement with the spec-side encoder. -/
theorem writeString_matches_spec_encoding (s : List Nat) :
    writeString s = writeStringSpec s := by
  by_cases h0 : s.length = 0
  · simp [writeString, writeStringSpec, h0]
  · by_cases h1 : s.length ≤ 0xFD
    · have hge : 1 ≤ s.length := by omega
      have hlt : (s.length + 1) % 256 = s.length + 1 := Nat.mod_eq_of_lt (by omega)
      simp [writeString, writeStringSpec, h0, h1, hge, hlt]
    · simp [writeString, writeStringSpec, h0, h1]

/- ## C2: the size-of-upvalues byte between header and function block -/

/-- C2 (code bug evidence): for every prototype, the byte Dump places
between the 33 header bytes and the top-level function block is 0x00, not
the 0x01 that the claim, the spec, and the source's own comment (the main
chunk has the one upvalue _ENV) require: dumpSizeUpvalues writes the
literal uint8(0). -/
theorem dumpSizeUpvalues_writes_zero (p : Prototype) :
    (Dump p).drop 33 = 0 :: dumpFunction p ∧ (Dump p).take 33 = headerBytes := by
  constructor <;> rfl

/- ## C9: toProto clamps MaxStackSize to at least 2 -/

/-- C9: for a function-info whose register count fits in a byte, toProto
yields MaxStackSize at least 2: equal to 2 when the register count is below
2 and equal to the register count otherwise. -/
theorem toProto_clamps_MaxStackSize (fi : funcInfo) (h : fi.maxRegs < 256) :
    2 ≤ (toProto fi).MaxStackSize ∧
    (fi.maxRegs < 2 → (toProto fi).MaxStackSize = 2) ∧
    (2 ≤ fi.maxRegs → (toProto fi).MaxStackSize = fi.maxRegs) := by
  cases fi with
  | mk np mr iv insts consts ups subs ld lld =>
    simp only [funcInfo.maxRegs] at h ⊢
    have hmod : mr % 256 = mr := Nat.mod_eq_of_lt h
    simp only [toProto, Prototype.MaxStackSize, funcInfo.maxRegs, hmod]
    by_cases h2 : mr < 2
    · rw [if_pos h2]
      omega
    · rw [if_neg h2]
      omega

theorem toProto_clamps_MaxStackSize_witness :
    ((funcInfo.mk 0 1 false [] [] [] .nil 0 0).maxRegs < 256 ∧
      2 ≤ (toProto (funcInfo.mk 0 1 false [] [] [] .nil 0 0)).MaxStackSize) ∧
    ((funcInfo.mk 2 7 true [] [] [] .nil 0 0).maxRegs < 256 ∧
      (toProto (funcInfo.mk 2 7 true [] [] [] .nil 0 0)).MaxStackSize = 7) :=
  ⟨⟨by decide, (toProto_clamps_MaxStackSize (funcInfo.mk 0 1 false [] [] [] .nil 0 0)
      (by decide)).1⟩,
   ⟨by decide, (toProto_clamps_MaxStackSize (funcInfo.mk 2 7 true [] [] [] .nil 0 0)
      (by decide)).2.2 (by decide)⟩⟩

/- ## C10: sticky error handling of the chunk writer -/

/-- C10: the write method of dumpState is first-error sticky: once an error
is stored, a write call changes nothing (no bytes are emitted, the stored
error stays), hence any sequence of subsequent write calls changes nothing;
at the failing call itself the underlying error is recorded and no bytes
are emitted; and Dump's final file-write step overwrites the stored error
unconditionally. -/
theorem write_error_sticky_and_final_overwrite :
    (∀ (d : dumpState) (e : Nat) (data : List Nat),
      d.err = some e → d.write data = d) ∧
    (∀ (d : dumpState) (e : Nat) (chunks : List (List Nat)),
      d.err = some e → writeAll d chunks = d) ∧
    (∀ (d : dumpState) (e : Nat) (rest : List (Option Nat)) (data : List Nat),
      d.err = none → d.oracle = some e :: rest →
        (d.write data).err = some e ∧ (d.write data).out = d.out) ∧
    (∀ (p : Prototype) (oracle : List (Option Nat)) (fileRes : Option Nat),
      (DumpS p oracle fileRes).err = fileRes) := by
  have hstick : ∀ (d : dumpState) (e : Nat) (data : List Nat),
      d.err = some e → d.write data = d := by
    intro d e data h
    simp [dumpState.write, h]
  refine ⟨hstick, ?_, ?_, ?_⟩
  · intro d e chunks h
    induction chunks with
    | nil => rfl
    | cons c cs ih =>
      simp only [writeAll, List.foldl_cons] at *
      rw [hstick d e c h]
      exact ih
  · intro d e rest data h ho
    simp [dumpState.write, h, ho]
  · intro p oracle fileRes
    rfl

theorem write_error_sticky_and_final_overwrite_witness :
    (dumpState.mk [] (some 7) []).err = some 7 ∧
    dumpState.write (dumpState.mk [] (some 7) []) [1, 2] = dumpState.mk [] (some 7) [] ∧
    writeAll (dumpState.mk [] (some 7) []) [[1], [2]] = dumpState.mk [] (some 7) [] ∧
    (dumpState.mk [3] none [some 9]).err = none ∧
    (dumpState.write (dumpState.mk [3] none [some 9]) [4]).err = some 9 ∧
    (dumpState.write (dumpState.mk [3] none [some 9]) [4]).out = [3] ∧
    (DumpS (Prototype.mk [] 0 0 0 0 2 [] [] [] .nil [] [] []) [] none).err = none :=
  ⟨rfl,
   write_error_sticky_and_final_overwrite.1 (dumpState.mk [] (some 7) []) 7 [1, 2] rfl,
   write_error_sticky_and_final_overwrite.2.1 (dumpState.mk [] (some 7) []) 7 [[1], [2]] rfl,
   rfl,
   (write_error_sticky_and_final_overwrite.2.2.1 (dumpState.mk [3] none [some 9]) 9 [] [4]
     rfl rfl).1,
   (write_error_sticky_and_final_overwrite.2.2.1 (dumpState.mk [3] none [some 9]) 9 [] [4]
     rfl rfl).2,
   write_error_sticky_and_final_overwrite.2.2.2 (Prototype.mk [] 0 0 0 0 2 [] [] [] .nil [] [] [])
     [] none⟩

/- ## C7: upvalue descriptors emitted by getUpvalues -/

theorem foldl_set_get_ne {α : Type} (idx : α → Nat) (v : α → Upvalue)
    (l : List α) (acc : List Upvalue) (j : Nat) (h : ∀ x ∈ l, idx x ≠ j) :
    (l.foldl (fun ups y => ups.set (idx y) (v y)) acc)[j]? = acc[j]? := by
  induction l generalizing acc with
  | nil => rfl
  | cons x xs ih =>
    rw [List.foldl_cons, ih _ (fun y hy => h y (List.mem_cons_of_mem x hy)),
      List.getElem?_set_ne (h x (List.mem_cons_self x xs))]

theorem foldl_set_get_mem {α : Type} (idx : α → Nat) (v : α → Upvalue)
    (l : List α) (acc : List Upvalue) (x : α) (hmem : x ∈ l)
    (hnodup : (l.map idx).Nodup) (hlen : idx x < acc.length) :
    (l.foldl (fun ups y => ups.set (idx y) (v y)) acc)[idx x]? = some (v x) := by
  induction l generalizing acc with
  | nil => cases hmem
  | cons y ys ih =>
    rw [List.map_cons, List.nodup_cons] at hnodup
    rw [List.foldl_cons]
    rcases List.mem_cons.mp hmem with rfl | hmem2
    · rw [foldl_set_get_ne]
      · exact List.getElem?_set_eq_of_lt _ hlen
      · intro z hz hzx
        exact hnodup.1 (hzx ▸ List.mem_map_of_mem idx hz)
    · exact ih _ hmem2 hnodup.2 (by simpa [List.length_set] using hlen)

/-- C7: an upvalue recorded by the code generator with a nonnegative
locVarSlot (the name resolved to a local of the enclosing function) yields
the descriptor Instack=1, Idx=locVarSlot; one with a negative locVarSlot
(the name resolved to an upvalue of the enclosing closure) yields
Instack=0, Idx=upvalIndex; the descriptor sits at the upvalue's recorded
index.  The indices are assumed in range and mutually distinct, and the
slot and upvalue index fit in a byte, as the code generator guarantees. -/
theorem getUpvalues_descriptor_shape (fi : funcInfo)
    (hnodup : (fi.upvalues.map (fun nuv => nuv.2.index)).Nodup)
    (nuv : List Nat × upvalInfo) (hmem : nuv ∈ fi.upvalues)
    (hlen : nuv.2.index < fi.upvalues.length)
    (hslot : nuv.2.locVarSlot < 256)
    (hup : ¬ 0 ≤ nuv.2.locVarSlot → 0 ≤ nuv.2.upvalIndex ∧ nuv.2.upvalIndex < 256) :
    (getUpvalues fi)[nuv.2.index]? =
      some (if 0 ≤ nuv.2.locVarSlot
        then Upvalue.mk 1 nuv.2.locVarSlot.toNat
        else Upvalue.mk 0 nuv.2.upvalIndex.toNat) := by
  have h := foldl_set_get_mem (fun nuv => nuv.2.index)
    (fun nuv => if 0 ≤ nuv.2.locVarSlot
      then (⟨1, goByteOfInt nuv.2.locVarSlot⟩ : Upvalue)
      else ⟨0, goByteOfInt nuv.2.upvalIndex⟩)
    fi.upvalues (List.replicate fi.upvalues.length ⟨0, 0⟩) nuv hmem hnodup
    (by simpa using hlen)
  unfold getUpvalues
  refine h.trans ?_
  show some (if 0 ≤ nuv.2.locVarSlot
      then (⟨1, goByteOfInt nuv.2.locVarSlot⟩ : Upvalue)
      else ⟨0, goByteOfInt nuv.2.upvalIndex⟩) = _
  by_cases hpos : 0 ≤ nuv.2.locVarSlot
  · rw [if_pos hpos, if_pos hpos]
    have hb : goByteOfInt nuv.2.locVarSlot = nuv.2.locVarSlot.toNat := by
      unfold goByteOfInt
      omega
    rw [hb]
  · obtain ⟨hu1, hu2⟩ := hup hpos
    rw [if_neg hpos, if_neg hpos]
    have hb : goByteOfInt nuv.2.upvalIndex = nuv.2.upvalIndex.toNat := by
      unfold goByteOfInt
      omega
    rw [hb]

theorem getUpvalues_descriptor_shape_witness :
    (((funcInfo.mk 0 2 false [] [] [([110], ⟨0, -1, 0⟩), ([120], ⟨-1, 3, 1⟩)] .nil 0 0
        : funcInfo).upvalues.map (fun nuv => nuv.2.index)).Nodup ∧
      (getUpvalues
        (funcInfo.mk 0 2 false [] [] [([110], ⟨0, -1, 0⟩), ([120], ⟨-1, 3, 1⟩)] .nil 0 0))[0]? =
        some (Upvalue.mk 1 0)) ∧
    (getUpvalues
      (funcInfo.mk 0 2 false [] [] [([110], ⟨0, -1, 0⟩), ([120], ⟨-1, 3, 1⟩)] .nil 0 0))[1]? =
      some (Upvalue.mk 0 3) := by
  refine ⟨⟨by decide, ?_⟩, ?_⟩
  · have h := getUpvalues_descriptor_shape
      (funcInfo.mk 0 2 false [] [] [([110], ⟨0, -1, 0⟩), ([120], ⟨-1, 3, 1⟩)] .nil 0 0)
      (by decide) ([110], ⟨0, -1, 0⟩) (by decide) (by decide) (by decide) (by decide)
    simpa using h
  · have h := getUpvalues_descriptor_shape
      (funcInfo.mk 0 2 false [] [] [([110], ⟨0, -1, 0⟩), ([120], ⟨-1, 3, 1⟩)] .nil 0 0)
      (by decide) ([120], ⟨-1, 3, 1⟩) (by decide) (by decide) (by decide)
    simpa using h

/- ## Association-list map lemmas -/

theorem mapGet_eq_nil_of_not_mem (m : List (LuaValue × LuaValue)) (k : LuaValue)
    (h : k ∉ mapKeys m) : mapGet m k = .nil := by
  induction m with
  | nil => rfl
  | cons kv rest ih =>
    have hne : kv.1 ≠ k := by
      intro he
      exact h (he ▸ List.mem_map_of_mem Prod.fst (List.mem_cons_self kv rest))
    obtain ⟨k0, v0⟩ := kv
    rw [mapGet, if_neg hne]
    exact ih (fun hm => h (List.mem_cons_of_mem _ hm))

theorem mapGet_append_left_miss (pre rest : List (LuaValue × LuaValue)) (k : LuaValue)
    (h : k ∉ mapKeys pre) : mapGet (pre ++ rest) k = mapGet rest k := by
  induction pre with
  | nil => rfl
  | cons kv pre2 ih =>
    have hne : kv.1 ≠ k := by
      intro he
      exact h (he ▸ List.mem_map_of_mem Prod.fst (List.mem_cons_self kv pre2))
    obtain ⟨k0, v0⟩ := kv
    rw [List.cons_append, mapGet, if_neg hne]
    exact ih (fun hm => h (List.mem_cons_of_mem _ hm))

theorem mapGet_mapInsert_self (m : List (LuaValue × LuaValue)) (k v : LuaValue) :
    mapGet (mapInsert m k v) k = v := by
  induction m with
  | nil => simp [mapInsert, mapGet]
  | cons kv rest ih =>
    obtain ⟨k0, v0⟩ := kv
    by_cases he : k0 = k
    · rw [mapInsert, if_pos he, mapGet, if_pos rfl]
    · rw [mapInsert, if_neg he, mapGet, if_neg he]
      exact ih

theorem mapGet_mapErase_self (m : List (LuaValue × LuaValue)) (k : LuaValue)
    (h : (mapKeys m).Nodup) : mapGet (mapErase m k) k = .nil := by
  induction m with
  | nil => rfl
  | cons kv rest ih =>
    obtain ⟨k0, v0⟩ := kv
    rw [mapKeys, List.map_cons, List.nodup_cons] at h
    by_cases he : k0 = k
    · rw [mapErase, if_pos he]
      exact mapGet_eq_nil_of_not_mem rest k (he ▸ h.1)
    · rw [mapErase, if_neg he, mapGet, if_neg he]
      exact ih h.2

theorem mem_mapInsert (m : List (LuaValue × LuaValue)) (k v : LuaValue)
    (kv : LuaValue × LuaValue) (h : kv ∈ mapInsert m k v) : kv = (k, v) ∨ kv ∈ m := by
  induction m with
  | nil =>
    simp [mapInsert] at h
    exact Or.inl h
  | cons kv0 rest ih =>
    obtain ⟨k0, v0⟩ := kv0
    by_cases he : k0 = k
    · rw [mapInsert, if_pos he] at h
      rcases List.mem_cons.mp h with h1 | h1
      · exact Or.inl h1
      · exact Or.inr (List.mem_cons_of_mem _ h1)
    · rw [mapInsert, if_neg he] at h
      rcases List.mem_cons.mp h with h1 | h1
      · exact Or.inr (h1 ▸ List.mem_cons_self _ _)
      · rcases ih h1 with h2 | h2
        · exact Or.inl h2
        · exact Or.inr (List.mem_cons_of_mem _ h2)

theorem mem_mapErase (m : List (LuaValue × LuaValue)) (k : LuaValue)
    (kv : LuaValue × LuaValue) (h : kv ∈ mapErase m k) : kv ∈ m := by
  induction m with
  | nil =>
    rw [mapErase] at h
    exact absurd h (List.not_mem_nil kv)
  | cons kv0 rest ih =>
    obtain ⟨k0, v0⟩ := kv0
    by_cases he : k0 = k
    · rw [mapErase, if_pos he] at h
      exact List.mem_cons_of_mem _ h
    · rw [mapErase, if_neg he] at h
      rcases List.mem_cons.mp h with h1 | h1
      · exact h1 ▸ List.mem_cons_self _ _
      · exact List.mem_cons_of_mem _ (ih h1)

/- ## C4: the length operation is not a border in general -/

/-- C4 (code bug evidence): luaTable.len returns the size of the underlying
map, which need not be a border.  After a single put of value 1 at the
string key "k", the map has one entry, len reports 1, but t[1] is nil, so
the only valid border is 0; the claim that len always returns a valid
border fails on this table. -/
theorem len_not_a_border :
    (newLuaTable 0 0).put (.str [107]) (.integer 1) =
      .ok (luaTable.mk [(.str [107], .integer 1)] none .nil true) ∧
    (luaTable.mk [(.str [107], .integer 1)] none .nil true).len = 1 ∧
    ¬ isBorder (luaTable.mk [(.str [107], .integer 1)] none .nil true) 1 :=
  ⟨rfl, rfl, by unfold isBorder; decide⟩

/- ## C5: put rejects nil and NaN keys and never stores nil -/

/-- C5: put panics exactly on a nil key or a NaN float key; assigning nil
deletes the entry, so a subsequent get of that key yields nil; and after
any sequence of puts starting from a fresh table, no stored value is nil.
The duplicate-free key list is the Go map invariant. -/
theorem put_rejects_bad_keys_and_stores_no_nil (t : luaTable) (k v : LuaValue)
    (hwf : (mapKeys t._map).Nodup) (ops : List (LuaValue × LuaValue)) :
    ((∃ e, t.put k v = .error e) ↔ (k = .nil ∨ isNaNKey k = true)) ∧
    (∀ t2, t.put k .nil = .ok t2 → t2.get k = .nil) ∧
    (∀ kv ∈ (applyPuts (newLuaTable 0 0) ops)._map, kv.2 ≠ .nil) := by
  have noNil_put : ∀ (t1 : luaTable) (k1 v1 : LuaValue) (t2 : luaTable),
      (∀ kv ∈ t1._map, kv.2 ≠ .nil) → t1.put k1 v1 = .ok t2 →
      ∀ kv ∈ t2._map, kv.2 ≠ .nil := by
    intro t1 k1 v1 t2 hno hput kv hmem
    rw [luaTable.put] at hput
    by_cases h1 : k1 = .nil
    · rw [if_pos h1] at hput
      cases hput
    · rw [if_neg h1] at hput
      by_cases h2 : isNaNKey k1 = true
      · rw [if_pos h2] at hput
        cases hput
      · rw [if_neg h2] at hput
        by_cases h3 : v1 ≠ .nil
        · rw [if_pos h3] at hput
          cases hput
          rcases mem_mapInsert _ _ _ kv hmem with h4 | h4
          · rw [h4]
            exact h3
          · exact hno kv h4
        · rw [if_neg h3] at hput
          cases hput
          exact hno kv (mem_mapErase _ _ kv hmem)
  refine ⟨?_, ?_, ?_⟩
  · constructor
    · rintro ⟨e, he⟩
      by_contra hcon
      push_neg at hcon
      rw [luaTable.put, if_neg hcon.1, if_neg hcon.2] at he
      by_cases h3 : v ≠ .nil
      · rw [if_pos h3] at he
        cases he
      · rw [if_neg h3] at he
        cases he
    · rintro (h1 | h1)
      · exact ⟨.nilIndex, by rw [luaTable.put, if_pos h1]⟩
      · refine ⟨.nanIndex, ?_⟩
        have h2 : k ≠ .nil := by
          intro he
          rw [he] at h1
          exact absurd h1 (by decide)
        rw [luaTable.put, if_neg h2, if_pos h1]
  · intro t2 hput
    rw [luaTable.put] at hput
    by_cases h1 : k = .nil
    · rw [if_pos h1] at hput
      cases hput
    · rw [if_neg h1] at hput
      by_cases h2 : isNaNKey k = true
      · rw [if_pos h2] at hput
        cases hput
      · rw [if_neg h2, if_neg (by simp : ¬ (LuaValue.nil ≠ LuaValue.nil))] at hput
        cases hput
        rw [luaTable.get]
        exact mapGet_mapErase_self _ _ hwf
  · have gen : ∀ (ops2 : List (LuaValue × LuaValue)) (t1 : luaTable),
        (∀ kv ∈ t1._map, kv.2 ≠ .nil) →
        ∀ kv ∈ (applyPuts t1 ops2)._map, kv.2 ≠ .nil := by
      intro ops2
      induction ops2 with
      | nil => intro t1 h kv hm; exact h kv hm
      | cons op rest ih =>
        intro t1 h kv hm
        obtain ⟨k1, v1⟩ := op
        rw [applyPuts] at hm
        rcases hok : t1.put k1 v1 with e | t2
        · rw [hok] at hm
          exact ih t1 h kv hm
        · rw [hok] at hm
          exact ih t2 (noNil_put t1 k1 v1 t2 h hok) kv hm
    intro kv hm
    exact gen ops (newLuaTable 0 0) (by intro kv2 hm2; cases hm2) kv hm

theorem put_rejects_bad_keys_and_stores_no_nil_witness :
    ((mapKeys (newLuaTable 0 0)._map).Nodup ∧
      (∃ e, (newLuaTable 0 0).put .nil (.integer 1) = .error e) ∧
      (∃ e, (newLuaTable 0 0).put (.float .nan) (.integer 1) = .error e)) ∧
    ((mapKeys (luaTable.mk [(.integer 1, .integer 5)] none .nil false)._map).Nodup ∧
      (luaTable.mk [(.integer 1, .integer 5)] none .nil false).put (.integer 1) .nil =
        .ok (luaTable.mk [] none .nil true) ∧
      (luaTable.mk [] none .nil true).get (.integer 1) = .nil) ∧
    ((LuaValue.integer 1, LuaValue.integer 5) ∈
        (applyPuts (newLuaTable 0 0) [(.integer 1, .integer 5)])._map ∧
      (LuaValue.integer 1, LuaValue.integer 5).2 ≠ LuaValue.nil) := by
  refine ⟨⟨by decide, ?_, ?_⟩, ⟨by decide, rfl, ?_⟩, by decide, ?_⟩
  · exact (put_rejects_bad_keys_and_stores_no_nil (newLuaTable 0 0) .nil (.integer 1)
      (by decide) []).1.mpr (Or.inl rfl)
  · exact (put_rejects_bad_keys_and_stores_no_nil (newLuaTable 0 0) (.float .nan) (.integer 1)
      (by decide) []).1.mpr (Or.inr rfl)
  · exact (put_rejects_bad_keys_and_stores_no_nil
      (luaTable.mk [(.integer 1, .integer 5)] none .nil false) (.integer 1) (.integer 7)
      (by decide) []).2.1 (luaTable.mk [] none .nil true) rfl
  · exact (put_rejects_bad_keys_and_stores_no_nil (newLuaTable 0 0) .nil .nil (by decide)
      [(.integer 1, .integer 5)]).2.2 (LuaValue.integer 1, LuaValue.integer 5) (by decide)

/- ## C6: integral float keys and integer keys coincide -/

/-- C6: a float key holding exactly the integer value i is normalized to
the integer key i by both get and put: storing through one and reading
through the other sees the same entry, and the two gets agree. -/
theorem float_and_integer_keys_agree (t : luaTable) (i : Int) (v : LuaValue)
    (hwf : (mapKeys t._map).Nodup) :
    (∀ t2, t.put (.float (.val (i : ℚ))) v = .ok t2 → t2.get (.integer i) = v) ∧
    (∀ t2, t.put (.integer i) v = .ok t2 → t2.get (.float (.val (i : ℚ))) = v) ∧
    t.get (.float (.val (i : ℚ))) = t.get (.integer i) := by
  have hnorm : _floatToInteger (.float (.val (i : ℚ))) = .integer i := by
    rw [_floatToInteger, FloatToInteger]
    simp [Rat.den_intCast, Rat.num_intCast]
  have hnormInt : _floatToInteger (.integer i) = .integer i := rfl
  have hget : ∀ t2 : luaTable, (mapKeys t2._map).Nodup → ∀ key : LuaValue,
      _floatToInteger key = .integer i → t2._map = mapInsert t._map (.integer i) v ∨
        (t2._map = mapErase t._map (.integer i) ∧ v = .nil) →
      t2.get key = v := by
    intro t2 h2 key hkey hmap
    rw [luaTable.get, hkey]
    rcases hmap with hm | ⟨hm, hv⟩
    · rw [hm]
      exact mapGet_mapInsert_self _ _ _
    · rw [hm, hv]
      exact mapGet_mapErase_self _ _ hwf
  have hput : ∀ key : LuaValue, key ≠ .nil → isNaNKey key = false →
      _floatToInteger key = .integer i →
      ∀ t2, t.put key v = .ok t2 →
        t2._map = mapInsert t._map (.integer i) v ∨
        (t2._map = mapErase t._map (.integer i) ∧ v = .nil) := by
    intro key hk1 hk2 hkey t2 hok
    rw [luaTable.put, if_neg hk1, if_neg (by rw [hk2]; intro h; cases h)] at hok
    by_cases h3 : v ≠ .nil
    · rw [if_pos h3] at hok
      cases hok
      rw [hkey]
      exact Or.inl rfl
    · rw [if_neg h3] at hok
      cases hok
      rw [hkey]
      push_neg at h3
      exact Or.inr ⟨rfl, h3⟩
  refine ⟨?_, ?_, ?_⟩
  · intro t2 hok
    have hm := hput (.float (.val (i : ℚ))) (by intro h; cases h) (by rfl) hnorm t2 hok
    have h2 : (mapKeys t2._map).Nodup ∨ True := Or.inr trivial
    rcases hm with hm1 | hm1
    · rw [luaTable.get, hnormInt, hm1]
      exact mapGet_mapInsert_self _ _ _
    · rw [luaTable.get, hnormInt, hm1.1, hm1.2]
      exact mapGet_mapErase_self _ _ hwf
  · intro t2 hok
    have hm := hput (.integer i) (by intro h; cases h) (by rfl) hnormInt t2 hok
    rcases hm with hm1 | hm1
    · rw [luaTable.get, hnorm, hm1]
      exact mapGet_mapInsert_self _ _ _
    · rw [luaTable.get, hnorm, hm1.1, hm1.2]
      exact mapGet_mapErase_self _ _ hwf
  · rw [luaTable.get, luaTable.get, hnorm, hnormInt]

theorem float_and_integer_keys_agree_witness :
    (mapKeys (newLuaTable 0 0)._map).Nodup ∧
    (newLuaTable 0 0).put (.float (.val ((2 : Int) : ℚ))) (.boolean true) =
      .ok (luaTable.mk [(.integer 2, .boolean true)] none .nil true) ∧
    (luaTable.mk [(.integer 2, .boolean true)] none .nil true).get (.integer 2) =
      .boolean true := by
  refine ⟨by decide, rfl, ?_⟩
  exact (float_and_integer_keys_agree (newLuaTable 0 0) 2 (.boolean true) (by decide)).1
    (luaTable.mk [(.integer 2, .boolean true)] none .nil true) rfl

/- ## C8: lazy key snapshot and stable iteration via nextKey -/

theorem nextKey_no_rebuild (t : luaTable) (key : LuaValue)
    (L : List (LuaValue × LuaValue)) (hk : t.keys = some L)
    (hnr : ¬(key = LuaValue.nil ∧ t.changed = true)) :
    t.nextKey key =
      if mapGet L key = LuaValue.nil ∧ ¬ key = LuaValue.nil ∧ ¬ key = t.lastKey
        then .error .invalidNext
        else .ok (mapGet L key, t) := by
  have hcond : ¬(t.keys = none ∨ (key = LuaValue.nil ∧ t.changed = true)) := by
    intro hcon
    rcases hcon with hcon | hcon
    · rw [hk] at hcon
      cases hcon
    · exact hnr hcon
  rw [luaTable.nextKey, if_neg hcond, hk]
  rfl

theorem nextKey_rebuild (t : luaTable) (hstart : t.keys = none ∨ t.changed = true) :
    t.nextKey .nil = ({ t.initKeys with changed := false } : luaTable).nextKey .nil := by
  have hcond : t.keys = none ∨ (LuaValue.nil = LuaValue.nil ∧ t.changed = true) := by
    rcases hstart with h | h
    · exact Or.inl h
    · exact Or.inr ⟨rfl, h⟩
  have hcond2 : ¬(({ t.initKeys with changed := false } : luaTable).keys = none ∨
      (LuaValue.nil = LuaValue.nil ∧
        ({ t.initKeys with changed := false } : luaTable).changed = true)) := by
    simp [luaTable.initKeys]
  rw [luaTable.nextKey, luaTable.nextKey, if_pos hcond, if_neg hcond2]

theorem iterKeys_chain (m : List (LuaValue × LuaValue)) :
    ∀ (pre : List (LuaValue × LuaValue)) (prev : LuaValue) (T : luaTable),
    T.keys = some (pre ++ (buildKeys prev m).1) →
    T.lastKey = (buildKeys prev m).2 →
    T.changed = false →
    prev ∉ mapKeys pre →
    (∀ k2 ∈ mapKeys m, k2 ∉ mapKeys pre) →
    prev ∉ mapKeys m →
    (mapKeys m).Nodup →
    (∀ kv ∈ m, kv.1 ≠ .nil ∧ kv.2 ≠ .nil) →
    iterKeys (m.length + 1) T prev = some (mapKeys m) := by
  induction m with
  | nil =>
    intro pre prev T hk hl hc h4 h5 h6 h7 h8
    have hb1 : (buildKeys prev []).1 = [] := rfl
    have hb2 : (buildKeys prev []).2 = prev := rfl
    rw [hb1, List.append_nil] at hk
    rw [hb2] at hl
    have hnk := nextKey_no_rebuild T prev pre hk (by rw [hc]; simp)
    rw [mapGet_eq_nil_of_not_mem pre prev h4, hl] at hnk
    rw [if_neg (by simp)] at hnk
    rw [List.length_nil, iterKeys, hnk]
    simp [mapKeys]
  | cons kv rest ih =>
    obtain ⟨k, v⟩ := kv
    intro pre prev T hk hl hc h4 h5 h6 h7 h8
    have hkv := h8 (k, v) (List.mem_cons_self _ _)
    have hknil : k ≠ LuaValue.nil := hkv.1
    have hb1 : (buildKeys prev ((k, v) :: rest)).1 = (prev, k) :: (buildKeys k rest).1 := by
      rw [buildKeys, if_neg hkv.2]
    have hb2 : (buildKeys prev ((k, v) :: rest)).2 = (buildKeys k rest).2 := by
      rw [buildKeys, if_neg hkv.2]
    rw [hb1] at hk
    rw [hb2] at hl
    have hkmem : k ∈ mapKeys ((k, v) :: rest) :=
      List.mem_map_of_mem Prod.fst (List.mem_cons_self _ _)
    have hrestsub : ∀ k2 ∈ mapKeys rest, k2 ∈ mapKeys ((k, v) :: rest) := by
      intro k2 hm
      rw [mapKeys, List.map_cons]
      exact List.mem_cons_of_mem _ hm
    have hnk := nextKey_no_rebuild T prev (pre ++ (prev, k) :: (buildKeys k rest).1) hk
      (by rw [hc]; simp)
    rw [mapGet_append_left_miss pre _ prev h4] at hnk
    rw [mapGet, if_pos rfl] at hnk
    rw [if_neg (fun hcon => hknil hcon.1)] at hnk
    have hknodup : k ∉ mapKeys rest := by
      rw [mapKeys, List.map_cons, List.nodup_cons] at h7
      exact h7.1
    have ihres := ih (pre ++ [(prev, k)]) k T
      (by rw [hk]; simp)
      hl hc
      (by
        rw [mapKeys, List.map_append]
        intro hcon
        rcases List.mem_append.mp hcon with hcon1 | hcon1
        · exact h5 k hkmem hcon1
        · simp [mapKeys] at hcon1
          exact h6 (hcon1 ▸ hkmem))
      (by
        intro k2 hm
        rw [mapKeys, List.map_append]
        intro hcon
        rcases List.mem_append.mp hcon with hcon1 | hcon1
        · exact h5 k2 (hrestsub k2 hm) hcon1
        · simp [mapKeys] at hcon1
          exact h6 (hcon1 ▸ hrestsub k2 hm))
      hknodup
      (by rw [mapKeys, List.map_cons, List.nodup_cons] at h7; exact h7.2)
      (fun kv2 hm => h8 kv2 (List.mem_cons_of_mem _ hm))
    rw [List.length_cons, iterKeys, hnk]
    show (if k = LuaValue.nil then some []
      else Option.map (fun x => k :: x) (iterKeys (rest.length + 1) T k)) =
      some (mapKeys ((k, v) :: rest))
    rw [if_neg hknil, ihres]
    simp [mapKeys]

/-- C8: any successful put marks the table as structurally changed, and a
traversal restarted from the nil key on a table whose snapshot is missing
or stale (keys not yet built, or changed set) rebuilds the snapshot and
visits exactly the keys of the map, each once, after which next yields nil
(the traversal terminates with a some answer).  The well-formedness
hypothesis is the invariant put maintains: distinct keys, no nil key, no
stored nil value. -/
theorem nextKey_snapshot_iteration (t : luaTable)
    (hwf : wfMap t._map) (hstart : t.keys = none ∨ t.changed = true) :
    (∀ k v t2, t.put k v = .ok t2 → t2.changed = true) ∧
    iterKeys (t.len + 1) t .nil = some (mapKeys t._map) := by
  constructor
  · intro k v t2 hok
    rw [luaTable.put] at hok
    by_cases h1 : k = .nil
    · rw [if_pos h1] at hok
      cases hok
    · rw [if_neg h1] at hok
      by_cases h2 : isNaNKey k = true
      · rw [if_pos h2] at hok
        cases hok
      · rw [if_neg h2] at hok
        by_cases h3 : v ≠ .nil
        · rw [if_pos h3] at hok
          cases hok
          rfl
        · rw [if_neg h3] at hok
          cases hok
          rfl
  · have hrestart : iterKeys (t.len + 1) t .nil =
        iterKeys (t.len + 1) { t.initKeys with changed := false } .nil := by
      rw [luaTable.len, iterKeys, iterKeys, nextKey_rebuild t hstart]
    rw [hrestart]
    have happ := iterKeys_chain t._map [] .nil { t.initKeys with changed := false }
      (by simp [luaTable.initKeys])
      (by simp [luaTable.initKeys])
      rfl
      (by simp [mapKeys])
      (by intro k2 _; simp [mapKeys])
      (by
        intro hcon
        rcases List.mem_map.mp hcon with ⟨kv, hm, he⟩
        exact (hwf.2 kv hm).1 he)
      hwf.1
      hwf.2
    rw [luaTable.len]
    exact happ

theorem nextKey_snapshot_iteration_witness :
    (wfMap (luaTable.mk [(.integer 1, .str [97]), (.str [98], .boolean true)] none .nil
        false)._map ∧
      ((luaTable.mk [(.integer 1, .str [97]), (.str [98], .boolean true)] none .nil
          false) : luaTable).keys = none) ∧
    iterKeys 3 (luaTable.mk [(.integer 1, .str [97]), (.str [98], .boolean true)] none .nil false)
      .nil = some [.integer 1, .str [98]] ∧
    ((luaTable.mk [(.integer 1, .str [97]), (.str [98], .boolean true),
        (.integer 5, .boolean true)] none .nil true) : luaTable).changed = true := by
  refine ⟨⟨by unfold wfMap; decide, rfl⟩, ?_, ?_⟩
  · exact (nextKey_snapshot_iteration
      (luaTable.mk [(.integer 1, .str [97]), (.str [98], .boolean true)] none .nil false)
      (by unfold wfMap; decide) (Or.inl rfl)).2
  · exact (nextKey_snapshot_iteration
      (luaTable.mk [(.integer 1, .str [97]), (.str [98], .boolean true)] none .nil false)
      (by unfold wfMap; decide) (Or.inl rfl)).1 (.integer 5) (.boolean true)
      (luaTable.mk [(.integer 1, .str [97]), (.str [98], .boolean true),
        (.integer 5, .boolean true)] none .nil true) rfl

/- ## C1: round trip of Dump and Undump -/

theorem writeString_length_pos (s : List Nat) : 1 ≤ (writeString s).length := by
  by_cases h0 : s.length = 0
  · simp [writeString, h0]
  · by_cases h1 : s.length ≤ 0xFD
    · simp [writeString, h0, h1]
    · simp [writeString, h0, h1]

theorem goUint64OfInt_lt (i : Int) : goUint64OfInt i < 18446744073709551616 := by
  unfold goUint64OfInt
  omega

theorem dumpProtoList_eq : ∀ ps : ProtoList,
    dumpProtoList ps = (ps.toList.map dumpFunction).flatten
  | .nil => rfl
  | .cons p ps => by
    rw [dumpProtoList, ProtoList.toList, List.map_cons, List.flatten_cons,
      dumpProtoList_eq ps]

theorem ofList_toList : ∀ ps : ProtoList, ProtoList.ofList ps.toList = ps
  | .nil => rfl
  | .cons p ps => by
    rw [ProtoList.toList, ProtoList.ofList, ofList_toList ps]

theorem length_toList : ∀ ps : ProtoList, ps.toList.length = ps.length
  | .nil => rfl
  | .cons p ps => by
    rw [ProtoList.toList, List.length_cons, ProtoList.length, length_toList ps]

theorem wfProtoList_mem : ∀ ps : ProtoList, wfProtoList ps = true →
    ∀ q ∈ ps.toList, wfProto q = true
  | .nil => by
    intro _ q hq
    rw [ProtoList.toList] at hq
    exact absurd hq (List.not_mem_nil q)
  | .cons p ps => by
    intro hwf q hq
    rw [wfProtoList, Bool.and_eq_true] at hwf
    rw [ProtoList.toList] at hq
    rcases List.mem_cons.mp hq with h | h
    · exact h ▸ hwf.1
    · exact wfProtoList_mem ps hwf.2 q h

theorem pdepthList_mem : ∀ ps : ProtoList, ∀ q ∈ ps.toList, pdepth q ≤ pdepthList ps
  | .nil => by
    intro q hq
    rw [ProtoList.toList] at hq
    exact absurd hq (List.not_mem_nil q)
  | .cons p ps => by
    intro q hq
    rw [ProtoList.toList] at hq
    rw [pdepthList]
    rcases List.mem_cons.mp hq with h | h
    · exact h ▸ Nat.le_max_left _ _
    · exact Nat.le_trans (pdepthList_mem ps q h) (Nat.le_max_right _ _)

theorem readConstant_dumpConstant (c : LuaConst) (rest : List Nat)
    (h : wfConst c = true) : readConstant (dumpConstant c ++ rest) = some (c, rest) := by
  cases c with
  | cnil => rfl
  | cbool b => cases b <;> rfl
  | cnum bits =>
    have hb : bits < 18446744073709551616 := by
      simpa [wfConst] using h
    show (match readU64 (u64le bits ++ rest) with
      | none => none
      | some (n, r2) => some (LuaConst.cnum n, r2)) = some (.cnum bits, rest)
    rw [readU64_u64le bits rest hb]
  | cint i =>
    have hb : -9223372036854775808 ≤ i ∧ i < 9223372036854775808 := by
      simpa [wfConst, decide_eq_true_eq] using h
    show (match readU64 (u64le (goUint64OfInt i) ++ rest) with
      | none => none
      | some (n, r2) => some (LuaConst.cint (goInt64OfUint64 n), r2)) = some (.cint i, rest)
    rw [readU64_u64le _ rest (goUint64OfInt_lt i)]
    show some (LuaConst.cint (goInt64OfUint64 (goUint64OfInt i)), rest) = some (.cint i, rest)
    rw [goInt64_goUint64 i hb.1 hb.2]
  | cstr s =>
    have hs : strOK s = true := by simpa [wfConst] using h
    rw [dumpConstant]
    by_cases hlen : s.length ≤ 0xFD
    · rw [if_pos hlen]
      show (match readString (writeString s ++ rest) with
        | none => none
        | some (s2, r2) => some (LuaConst.cstr s2, r2)) = some (.cstr s, rest)
      rw [readString_writeString s rest hs]
    · rw [if_neg hlen]
      show (match readString (writeString s ++ rest) with
        | none => none
        | some (s2, r2) => some (LuaConst.cstr s2, r2)) = some (.cstr s, rest)
      rw [readString_writeString s rest hs]

theorem readUpvalue_dumpUpvalue (u : Upvalue) (rest : List Nat) :
    readUpvalue (dumpUpvalue u ++ rest) = some (u, rest) := rfl

theorem readLocVar_dumpLocVar (l : LocVar) (rest : List Nat)
    (h1 : strOK l.VarName = true) (h2 : l.StartPC < 4294967296)
    (h3 : l.EndPC < 4294967296) :
    readLocVar (dumpLocVar l ++ rest) = some (l, rest) := by
  obtain ⟨name, spc, epc⟩ := l
  have H1 : ∀ X, readString (writeString name ++ X) = some (name, X) :=
    fun X => readString_writeString name X h1
  have H2 : ∀ X, readU32 (u32le spc ++ X) = some (spc, X) :=
    fun X => readU32_u32le spc X h2
  have H3 : ∀ X, readU32 (u32le epc ++ X) = some (epc, X) :=
    fun X => readU32_u32le epc X h3
  simp only [dumpLocVar, List.append_assoc, readLocVar, H1, H2, H3]

mutual

theorem pdepth_le_dump : ∀ p : Prototype, pdepth p ≤ (dumpFunction p).length
  | .mk src ld lld np iv mss code consts ups protos li lv un => by
    have h1 := pdepthList_le_dump protos
    have h2 := writeString_length_pos src
    rw [pdepth, dumpFunction]
    simp only [List.length_append]
    omega

theorem pdepthList_le_dump : ∀ ps : ProtoList, pdepthList ps ≤ (dumpProtoList ps).length
  | .nil => Nat.zero_le _
  | .cons p ps => by
    have h1 := pdepth_le_dump p
    have h2 := pdepthList_le_dump ps
    rw [pdepthList, dumpProtoList]
    simp only [List.length_append]
    omega

end

theorem readSeqF_flatten {α : Type} (f : α → List Nat)
    (read1 : List Nat → Option (α × List Nat)) (xs : List α)
    (h : ∀ a ∈ xs, ∀ rest2, read1 (f a ++ rest2) = some (a, rest2)) :
    ∀ rest, readSeqF read1 xs.length ((xs.map f).flatten ++ rest) = some (xs, rest) := by
  induction xs with
  | nil => intro rest; rfl
  | cons a as ih =>
    intro rest
    have ih2 := ih (fun a2 ha2 => h a2 (List.mem_cons_of_mem _ ha2))
    simp only [List.length_cons, List.map_cons, List.flatten_cons, List.append_assoc,
      readSeqF, h a (List.mem_cons_self a as), ih2]

theorem undumpFunction_dumpFunction : ∀ (fuel : Nat) (p : Prototype) (rest : List Nat),
    wfProto p = true → pdepth p < fuel →
    undumpFunction fuel (dumpFunction p ++ rest) = some (p, rest) := by
  intro fuel
  induction fuel with
  | zero =>
    intro p rest hwf hd
    cases p with
    | mk src ld lld np iv mss code consts ups protos li lv un =>
      rw [pdepth] at hd
      omega
  | succ n ih =>
    intro p rest hwf hd
    cases p with
    | mk src ld lld np iv mss code consts ups protos li lv un =>
      rw [pdepth] at hd
      simp only [wfProto, Bool.and_eq_true, decide_eq_true_eq, List.all_eq_true] at hwf
      obtain ⟨⟨⟨⟨⟨⟨⟨⟨⟨⟨⟨⟨⟨⟨⟨⟨⟨⟨⟨h1, h2⟩, h3⟩, h4⟩, h5⟩, h6⟩, h7⟩, h8⟩, h9⟩, h10⟩,
        h11⟩, h12⟩, h13⟩, h14⟩, h15⟩, h16⟩, h17⟩, h18⟩, h19⟩, h20⟩ := hwf
      have Hsrc : ∀ X, readString (writeString src ++ X) = some (src, X) :=
        fun X => readString_writeString src X h1
      have Hld : ∀ X, readU32 (u32le ld ++ X) = some (ld, X) :=
        fun X => readU32_u32le ld X h2
      have Hlld : ∀ X, readU32 (u32le lld ++ X) = some (lld, X) :=
        fun X => readU32_u32le lld X h3
      have Hnp : np % 256 = np := Nat.mod_eq_of_lt (by omega)
      have Hiv : iv % 256 = iv := Nat.mod_eq_of_lt (by omega)
      have Hmss : mss % 256 = mss := Nat.mod_eq_of_lt (by omega)
      have Hcnt1 : ∀ X, readU32 (u32le code.length ++ X) = some (code.length, X) :=
        fun X => readU32_u32le _ X h7
      have Hcode := readSeqF_flatten u32le readU32 code
        (fun a ha X => readU32_u32le a X (h8 a ha))
      have Hcnt2 : ∀ X, readU32 (u32le consts.length ++ X) = some (consts.length, X) :=
        fun X => readU32_u32le _ X h9
      have Hconsts := readSeqF_flatten dumpConstant readConstant consts
        (fun c hc X => readConstant_dumpConstant c X (h10 c hc))
      have Hcnt3 : ∀ X, readU32 (u32le ups.length ++ X) = some (ups.length, X) :=
        fun X => readU32_u32le _ X h11
      have Hups := readSeqF_flatten dumpUpvalue readUpvalue ups
        (fun u _ X => readUpvalue_dumpUpvalue u X)
      have Hplen : protos.length = protos.toList.length := (length_toList protos).symm
      have Hcnt4 : ∀ X, readU32 (u32le protos.toList.length ++ X) =
          some (protos.toList.length, X) :=
        fun X => readU32_u32le _ X (by rw [length_toList]; exact h13)
      have Hprotos := readSeqF_flatten dumpFunction (fun bs2 => undumpFunction n bs2)
        protos.toList
        (fun q hq X => ih q X (wfProtoList_mem protos h14 q hq)
          (by have := pdepthList_mem protos q hq; omega))
      have Hdpl : dumpProtoList protos = (protos.toList.map dumpFunction).flatten :=
        dumpProtoList_eq protos
      have Hof : ProtoList.ofList protos.toList = protos := ofList_toList protos
      have Hcnt5 : ∀ X, readU32 (u32le li.length ++ X) = some (li.length, X) :=
        fun X => readU32_u32le _ X h15
      have Hli := readSeqF_flatten u32le readU32 li
        (fun a ha X => readU32_u32le a X (h16 a ha))
      have Hcnt6 : ∀ X, readU32 (u32le lv.length ++ X) = some (lv.length, X) :=
        fun X => readU32_u32le _ X h17
      have Hlv := readSeqF_flatten dumpLocVar readLocVar lv
        (fun l hl X => readLocVar_dumpLocVar l X (h18 l hl).1.1 (h18 l hl).1.2 (h18 l hl).2)
      have Hcnt7 : ∀ X, readU32 (u32le un.length ++ X) = some (un.length, X) :=
        fun X => readU32_u32le _ X h19
      have Hun := readSeqF_flatten writeString readString un
        (fun s hs X => readString_writeString s X (h20 s hs))
      simp only [dumpFunction, writeSeq, Hdpl, Hplen, List.append_assoc, List.cons_append,
        List.nil_append, Hnp, Hiv, Hmss, undumpFunction, Hsrc, Hld, Hlld, Hcnt1, Hcode,
        Hcnt2, Hconsts, Hcnt3, Hups, Hcnt4, Hprotos, Hcnt5, Hli, Hcnt6, Hlv, Hcnt7, Hun,
        Hof]

/-- C1: for every well-formed prototype (field bounds as the Go types give
them), deserializing the serialized binary chunk yields the prototype back:
Undump (Dump p) = p structurally, instructions, constants, upvalue table
and nested prototypes included. -/
theorem Dump_Undump_roundtrip (p : Prototype) (hwf : wfProto p = true) :
    Undump (Dump p) = some p := by
  have hlen33 : headerBytes.length = 33 := rfl
  have hsplit : Dump p = headerBytes ++ ([0] ++ dumpFunction p) := by
    rw [Dump, List.append_assoc]
  have htake : (Dump p).take 33 = headerBytes := by
    rw [hsplit, ← hlen33, List.take_left]
  have hdrop : (Dump p).drop 33 = 0 :: dumpFunction p := by
    rw [hsplit, ← hlen33, List.drop_left]
    rfl
  rw [Undump, if_pos htake, hdrop]
  show (match undumpFunction ((dumpFunction p).length + 1) (dumpFunction p) with
    | none => none
    | some (q, _) => some q) = some p
  have hmain := undumpFunction_dumpFunction ((dumpFunction p).length + 1) p [] hwf
    (by have := pdepth_le_dump p; omega)
  rw [List.append_nil] at hmain
  rw [hmain]

theorem Dump_Undump_roundtrip_witness :
    wfProto (Prototype.mk [116] 0 0 0 1 2 [78, 8388646]
      [.cnil, .cbool true, .cint (-5), .cnum 4645181520064282624, .cstr [97, 98]]
      [⟨1, 0⟩]
      (.cons (.mk [] 1 2 0 0 2 [38] [] [⟨0, 0⟩] .nil [] [] []) .nil)
      [] [] [[95, 69, 78, 86]]) = true ∧
    Undump (Dump (Prototype.mk [116] 0 0 0 1 2 [78, 8388646]
      [.cnil, .cbool true, .cint (-5), .cnum 4645181520064282624, .cstr [97, 98]]
      [⟨1, 0⟩]
      (.cons (.mk [] 1 2 0 0 2 [38] [] [⟨0, 0⟩] .nil [] [] []) .nil)
      [] [] [[95, 69, 78, 86]])) =
    some (Prototype.mk [116] 0 0 0 1 2 [78, 8388646]
      [.cnil, .cbool true, .cint (-5), .cnum 4645181520064282624, .cstr [97, 98]]
      [⟨1, 0⟩]
      (.cons (.mk [] 1 2 0 0 2 [38] [] [⟨0, 0⟩] .nil [] [] []) .nil)
      [] [] [[95, 69, 78, 86]]) :=
  ⟨by decide,
   Dump_Undump_roundtrip (Prototype.mk [116] 0 0 0 1 2 [78, 8388646]
      [.cnil, .cbool true, .cint (-5), .cnum 4645181520064282624, .cstr [97, 98]]
      [⟨1, 0⟩]
      (.cons (.mk [] 1 2 0 0 2 [38] [] [⟨0, 0⟩] .nil [] [] []) .nil)
      [] [] [[95, 69, 78, 86]]) (by decide)⟩

/- ## Agreement of the chunked writer with the byte-level writer

The payloads that DumpS feeds through the write method concatenate to
exactly the bytes dumpFunction produces, so the two embeddings of
dumpFunction describe the same output stream. -/

theorem stringChunks_flatten (s : List Nat) : (stringChunks s).flatten = writeString s := by
  by_cases h0 : s.length = 0
  · simp [stringChunks, writeString, h0]
  · by_cases h1 : s.length ≤ 0xFD
    · simp [stringChunks, writeString, h0, h1]
    · simp [stringChunks, writeString, h0, h1]

theorem constChunks_flatten (c : LuaConst) : (constChunks c).flatten = dumpConstant c := by
  cases c with
  | cnil => rfl
  | cbool b => rfl
  | cnum bits => rfl
  | cint i => rfl
  | cstr s =>
    by_cases h : s.length ≤ 0xFD
    · simp [constChunks, dumpConstant, stringChunks_flatten, h]
    · simp [constChunks, dumpConstant, stringChunks_flatten, h]

theorem flatten_map_chunks {α : Type} (g : α → List (List Nat)) (f : α → List Nat)
    (h : ∀ a, (g a).flatten = f a) :
    ∀ xs : List α, ((xs.map g).flatten).flatten = (xs.map f).flatten
  | [] => rfl
  | a :: as => by
    simp only [List.map_cons, List.flatten_cons, List.flatten_append, h a,
      flatten_map_chunks g f h as]

mutual

theorem functionChunks_flatten : ∀ p : Prototype,
    (functionChunks p).flatten = dumpFunction p
  | .mk src ld lld np iv mss code consts ups protos li lv un => by
    have hc := flatten_map_chunks constChunks dumpConstant constChunks_flatten consts
    have hu := flatten_map_chunks (fun u : Upvalue => [[u.Instack], [u.Idx]]) dumpUpvalue
      (fun u => rfl) ups
    have hl := flatten_map_chunks
      (fun l : LocVar => stringChunks l.VarName ++ [u32le l.StartPC, u32le l.EndPC]) dumpLocVar
      (fun l => by simp [List.flatten_append, stringChunks_flatten, dumpLocVar]) lv
    have hn := flatten_map_chunks stringChunks writeString stringChunks_flatten un
    have hp := protoListChunks_flatten protos
    simp only [functionChunks, dumpFunction, writeSeq, List.flatten_append,
      List.flatten_cons, List.flatten_nil, List.append_assoc, List.append_nil,
      List.cons_append, List.nil_append, stringChunks_flatten, hc, hu, hl, hn, hp]

theorem protoListChunks_flatten : ∀ ps : ProtoList,
    (protoListChunks ps).flatten = dumpProtoList ps
  | .nil => rfl
  | .cons p ps => by
    simp only [protoListChunks, dumpProtoList, List.flatten_append,
      functionChunks_flatten p, protoListChunks_flatten ps]

end
